import Mathlib

/-!
Verification of the portfolio repository's inline markdown fragment renderer
(`renderMarkdown` in `src/frontend/src/components/RepoModal.tsx`), the modal's
summary/fallback branch, and the data-fetch fallback functions of the page
sources.

The renderer is a chain of five JavaScript `String.replace` calls with global
regexes.  Each stage is embedded here as an executable function on `List Char`
that reproduces the exact leftmost-match / resume-after-match semantics of the
corresponding regex:

  stage 1  `/^\s*[\*-]\s+(.+)$/gm`            -> `<li>$1</li>`
  stage 2  `/((?:<li>[\s\S]*?<\/li>\s*)+)/g`  -> `<ul>$1</ul>`
  stage 3  `/\*\*(.+?)\*\*/g`                 -> `<strong>$1</strong>`
  stage 4  `/\*(?!\s)(.+?)\*/g`               -> `<em>$1</em>`
  stage 5  `` /`(.+?)`/g ``                   -> `<code>$1</code>`
-/

namespace Portfolio

/-- The backtick character, written as an escape to keep sources clean. -/
def bt : Char := '\x60'

/-- JavaScript's `\s` character class (ECMAScript WhiteSpace + LineTerminator). -/
def jsWs (c : Char) : Bool :=
  c = ' ' || c = '\t' || c = '\n' || c = '\r' ||
  c = '\x0b' || c = '\x0c' ||
  c = '\u00a0' || c = '\u1680' ||
  c = '\u2000' || c = '\u2001' || c = '\u2002' || c = '\u2003' ||
  c = '\u2004' || c = '\u2005' || c = '\u2006' || c = '\u2007' ||
  c = '\u2008' || c = '\u2009' || c = '\u200a' ||
  c = '\u2028' || c = '\u2029' || c = '\u202f' ||
  c = '\u205f' || c = '\u3000' || c = '\ufeff'

/-- ECMAScript LineTerminator: LF, CR, LS, PS — the characters that `.`
cannot match, before which the multiline `$` holds, and after which the
multiline `^` fires. -/
def isLineTerm (c : Char) : Bool :=
  c = '\n' || c = '\r' || c = '\u2028' || c = '\u2029'

theorem lineTerm_ws (c : Char) (h : isLineTerm c = true) : jsWs c = true := by
  rw [isLineTerm] at h
  simp only [Bool.or_eq_true, decide_eq_true_eq] at h
  rcases h with ((rfl | rfl) | rfl) | rfl <;> decide

theorem not_ws_not_lineTerm (c : Char) (h : jsWs c = false) :
    isLineTerm c = false := by
  by_cases hl : isLineTerm c = true
  · rw [lineTerm_ws c hl] at h
    exact absurd h (by simp)
  · simpa using hl

/-- Maximal whitespace prefix of a character list, with the remainder:
the greedy behaviour of `\s*` / `\s+`. -/
def takeWs : List Char → List Char × List Char
  | [] => ([], [])
  | c :: cs =>
    if jsWs c then
      let p := takeWs cs
      (c :: p.1, p.2)
    else ([], c :: cs)

/-- Maximal line-terminator-free prefix of a character list, with the
remainder: the greedy behaviour of `(.+)` up to `$` in multiline mode. -/
def takeLine : List Char → List Char × List Char
  | [] => ([], [])
  | c :: cs =>
    if isLineTerm c then ([], c :: cs)
    else
      let p := takeLine cs
      (c :: p.1, p.2)

theorem takeWs_eq (l : List Char) : (takeWs l).1 ++ (takeWs l).2 = l := by
  induction l with
  | nil => simp [takeWs]
  | cons c cs ih =>
    by_cases h : jsWs c <;> simp [takeWs, h, ih]

theorem takeWs_fst_ws (l : List Char) : ∀ c ∈ (takeWs l).1, jsWs c = true := by
  induction l with
  | nil => simp [takeWs]
  | cons c cs ih =>
    by_cases h : jsWs c
    · simp only [takeWs, if_pos h]
      intro d hd
      rcases List.mem_cons.mp hd with he | he
      · rw [he]; exact h
      · exact ih d he
    · simp [takeWs, h]

theorem takeWs_snd_len (l : List Char) : (takeWs l).2.length ≤ l.length := by
  conv_rhs => rw [← takeWs_eq l]
  simp

theorem takeLine_eq (l : List Char) : (takeLine l).1 ++ (takeLine l).2 = l := by
  induction l with
  | nil => simp [takeLine]
  | cons c cs ih =>
    by_cases h : isLineTerm c = true <;> simp [takeLine, h, ih]

/-- Lazy search for the closing delimiter of `(.+?)d`, starting at capture
index 1: returns the characters skipped before the first occurrence of `d`
and the remainder after it, failing on a line terminator (which `.` cannot
match). -/
def scanAfterFirst (d : Char) : List Char → Option (List Char × List Char)
  | [] => none
  | c :: cs =>
    if c = d then some ([], cs)
    else if isLineTerm c then none
    else
      match scanAfterFirst d cs with
      | some (cap, rest) => some (c :: cap, rest)
      | none => none

/-- One attempt of the lazy group-with-closer `(.+?)d` (as in `` `(.+?)` `` or
`\*(.+?)\*`): the capture is the shortest nonempty line-terminator-free prefix that is
followed by `d`; returns the capture and the remainder after the closer. -/
def scanClose (d : Char) : List Char → Option (List Char × List Char)
  | [] => none
  | c :: cs =>
    if isLineTerm c then none
    else
      match scanAfterFirst d cs with
      | some (cap, rest) => some (c :: cap, rest)
      | none => none

theorem scanAfterFirst_eq (d : Char) (l cap rest : List Char)
    (h : scanAfterFirst d l = some (cap, rest)) : l = cap ++ d :: rest := by
  induction l generalizing cap rest with
  | nil => simp [scanAfterFirst] at h
  | cons c cs ih =>
    simp only [scanAfterFirst] at h
    by_cases hc : c = d
    · rw [if_pos hc] at h
      obtain ⟨h1, h2⟩ : [] = cap ∧ cs = rest := by simpa using h
      rw [← h1, ← h2, hc]
      simp
    · rw [if_neg hc] at h
      by_cases hn : isLineTerm c = true
      · rw [if_pos hn] at h; exact absurd h (by simp)
      · rw [if_neg hn] at h
        rcases hs : scanAfterFirst d cs with _ | ⟨cap', rest'⟩
        · rw [hs] at h; exact absurd h (by simp)
        · rw [hs] at h
          obtain ⟨h1, h2⟩ : c :: cap' = cap ∧ rest' = rest := by simpa using h
          rw [← h1, ← h2, ih cap' rest' hs]
          simp

theorem scanClose_eq (d : Char) (l cap rest : List Char)
    (h : scanClose d l = some (cap, rest)) : l = cap ++ d :: rest := by
  match l with
  | [] => simp [scanClose] at h
  | c :: cs =>
    simp only [scanClose] at h
    by_cases hn : isLineTerm c = true
    · rw [if_pos hn] at h; exact absurd h (by simp)
    · rw [if_neg hn] at h
      rcases hs : scanAfterFirst d cs with _ | ⟨cap', rest'⟩
      · rw [hs] at h; exact absurd h (by simp)
      · rw [hs] at h
        obtain ⟨h1, h2⟩ : c :: cap' = cap ∧ rest' = rest := by simpa using h
        rw [← h1, ← h2, scanAfterFirst_eq d cs cap' rest' hs]
        simp

theorem scanClose_len (d : Char) (l cap rest : List Char)
    (h : scanClose d l = some (cap, rest)) : rest.length < l.length := by
  have := scanClose_eq d l cap rest h
  subst this
  simp
  omega

/-- Stage 5 scan, structurally recursive on a step bound.  The bound is
always instantiated with the list's length (see `codeStage`); every match or
literal character consumes at least one character, so with that bound the
zero arm is reached only on the empty list. -/
def codeStageF : Nat → List Char → List Char
  | 0, _ => []
  | _ + 1, [] => []
  | n + 1, c :: cs =>
    if c = bt then
      match scanClose bt cs with
      | some (cap, rest) =>
        "<code>".data ++ cap ++ "</code>".data ++ codeStageF n rest
      | none => c :: codeStageF n cs
    else c :: codeStageF n cs

/-- Stage 5: global replacement for `` /`(.+?)`/g `` producing
`<code>$1</code>`. -/
def codeStage (l : List Char) : List Char := codeStageF l.length l

/-- Strip a literal multi-character token from the front of a list:
`some rest` when the list starts with the token, `none` otherwise. -/
def stripPre : List Char → List Char → Option (List Char)
  | [], l => some l
  | _ :: _, [] => none
  | p :: ps, c :: cs => if p = c then stripPre ps cs else none

theorem stripPre_eq (p : List Char) : ∀ l r : List Char,
    stripPre p l = some r → l = p ++ r := by
  induction p with
  | nil => intro l r h; simpa [stripPre] using h
  | cons p ps ih =>
    intro l r h
    match l with
    | [] => simp [stripPre] at h
    | c :: cs =>
      simp only [stripPre] at h
      by_cases hp : p = c
      · rw [if_pos hp] at h
        rw [List.cons_append, ← hp, ih cs r h]
      · rw [if_neg hp] at h; exact absurd h (by simp)

/-- Lazy search for the two-character closer of `\*\*(.+?)\*\*`, starting at
capture index 1: characters skipped before the first `**`, and the remainder
after it; fails on a line terminator. -/
def scanAfterFirstBold : List Char → Option (List Char × List Char)
  | [] => none
  | c :: cs =>
    match stripPre "**".data (c :: cs) with
    | some rest => some ([], rest)
    | none =>
      if isLineTerm c then none
      else
        match scanAfterFirstBold cs with
        | some (cap, rest) => some (c :: cap, rest)
        | none => none

/-- One attempt of the lazy group `(.+?)\*\*`: shortest nonempty
line-terminator-free capture followed by the nearest `**`. -/
def scanCloseBold : List Char → Option (List Char × List Char)
  | [] => none
  | c :: cs =>
    if isLineTerm c then none
    else
      match scanAfterFirstBold cs with
      | some (cap, rest) => some (c :: cap, rest)
      | none => none

theorem scanAfterFirstBold_eq (l cap rest : List Char)
    (h : scanAfterFirstBold l = some (cap, rest)) :
    l = cap ++ '*' :: '*' :: rest := by
  induction l generalizing cap rest with
  | nil => simp [scanAfterFirstBold] at h
  | cons c cs ih =>
    simp only [scanAfterFirstBold] at h
    rcases hs : stripPre "**".data (c :: cs) with _ | rest'
    · rw [hs] at h
      by_cases hn : isLineTerm c = true
      · rw [if_pos hn] at h; exact absurd h (by simp)
      · rw [if_neg hn] at h
        rcases hr : scanAfterFirstBold cs with _ | ⟨cap', rest'⟩
        · rw [hr] at h; exact absurd h (by simp)
        · rw [hr] at h
          obtain ⟨h1, h2⟩ : c :: cap' = cap ∧ rest' = rest := by simpa using h
          rw [← h1, ← h2, ih cap' rest' hr]
          simp
    · rw [hs] at h
      obtain ⟨h1, h2⟩ : [] = cap ∧ rest' = rest := by simpa using h
      rw [← h1, ← h2]
      simpa using stripPre_eq "**".data (c :: cs) rest' hs

theorem scanCloseBold_eq (l cap rest : List Char)
    (h : scanCloseBold l = some (cap, rest)) :
    l = cap ++ '*' :: '*' :: rest := by
  match l with
  | [] => simp [scanCloseBold] at h
  | c :: cs =>
    simp only [scanCloseBold] at h
    by_cases hn : isLineTerm c = true
    · rw [if_pos hn] at h; exact absurd h (by simp)
    · rw [if_neg hn] at h
      rcases hr : scanAfterFirstBold cs with _ | ⟨cap', rest'⟩
      · rw [hr] at h; exact absurd h (by simp)
      · rw [hr] at h
        obtain ⟨h1, h2⟩ : c :: cap' = cap ∧ rest' = rest := by simpa using h
        rw [← h1, ← h2, scanAfterFirstBold_eq cs cap' rest' hr]
        simp

theorem scanCloseBold_len (l cap rest : List Char)
    (h : scanCloseBold l = some (cap, rest)) : rest.length < l.length := by
  have := scanCloseBold_eq l cap rest h
  subst this
  simp
  omega

/-- Lazy search for the first `</li>` (the `[\s\S]*?<\/li>` part of the
list-grouping regex): any characters, line terminators included, may be
skipped, and
the capture may be empty. -/
def scanToCloseLi : List Char → Option (List Char × List Char)
  | [] => none
  | c :: cs =>
    match stripPre "</li>".data (c :: cs) with
    | some rest => some ([], rest)
    | none =>
      match scanToCloseLi cs with
      | some (cap, rest) => some (c :: cap, rest)
      | none => none

theorem scanToCloseLi_eq (l cap rest : List Char)
    (h : scanToCloseLi l = some (cap, rest)) :
    l = cap ++ "</li>".data ++ rest := by
  induction l generalizing cap rest with
  | nil => simp [scanToCloseLi] at h
  | cons c cs ih =>
    simp only [scanToCloseLi] at h
    rcases hs : stripPre "</li>".data (c :: cs) with _ | rest'
    · rw [hs] at h
      rcases hr : scanToCloseLi cs with _ | ⟨cap', rest'⟩
      · rw [hr] at h; exact absurd h (by simp)
      · rw [hr] at h
        obtain ⟨h1, h2⟩ : c :: cap' = cap ∧ rest' = rest := by simpa using h
        rw [← h1, ← h2]
        have := ih cap' rest' hr
        rw [List.cons_append, List.cons_append, ← List.cons_append, this]
        simp
    · rw [hs] at h
      obtain ⟨h1, h2⟩ : [] = cap ∧ rest' = rest := by simpa using h
      rw [← h1, ← h2]
      simpa using stripPre_eq "</li>".data (c :: cs) rest' hs

theorem scanToCloseLi_len (l cap rest : List Char)
    (h : scanToCloseLi l = some (cap, rest)) : rest.length + 5 ≤ l.length := by
  have he := scanToCloseLi_eq l cap rest h
  subst he
  have h5 : ("</li>".data : List Char).length = 5 := rfl
  simp only [List.length_append, h5]
  omega

/-- The last non-line-terminator character of a list, together with the
characters before it and the (all-line-terminator) characters after it.
This realises the backtracking of `\s+(.+)$` when the greedy `\s+` has
swallowed the whole remaining string: the capture restarts at the last
character that `.` can match. -/
def splitLastNonTerm : List Char → Option (List Char × Char × List Char)
  | [] => none
  | c :: cs =>
    match splitLastNonTerm cs with
    | some (pre, d, post) => some (c :: pre, d, post)
    | none => if isLineTerm c then none else some ([], c, cs)

theorem splitLastNonTerm_eq (l : List Char) (pre : List Char) (d : Char)
    (post : List Char) (h : splitLastNonTerm l = some (pre, d, post)) :
    l = pre ++ d :: post := by
  induction l generalizing pre d post with
  | nil => simp [splitLastNonTerm] at h
  | cons c cs ih =>
    simp only [splitLastNonTerm] at h
    rcases hs : splitLastNonTerm cs with _ | ⟨pre', d', post'⟩
    · rw [hs] at h
      by_cases hn : isLineTerm c = true
      · rw [if_pos hn] at h; exact absurd h (by simp)
      · rw [if_neg hn] at h
        obtain ⟨h1, h2, h3⟩ : [] = pre ∧ c = d ∧ cs = post := by simpa using h
        rw [← h1, ← h2, ← h3]
        simp
    · rw [hs] at h
      obtain ⟨h1, h2, h3⟩ : c :: pre' = pre ∧ d' = d ∧ post' = post := by
        simpa using h
      rw [← h1, ← h2, ← h3, List.cons_append, ih pre' d' post' hs]

theorem takeWs_snd_head (l : List Char) (c : Char) (cs : List Char)
    (h : (takeWs l).2 = c :: cs) : jsWs c = false := by
  induction l with
  | nil => simp [takeWs] at h
  | cons x xs ih =>
    by_cases hx : jsWs x
    · simp only [takeWs, if_pos hx] at h
      exact ih h
    · simp only [takeWs, if_neg hx] at h
      obtain ⟨h1, _⟩ := List.cons.injEq .. ▸ h
      rw [← h1]
      exact Bool.not_eq_true _ ▸ hx

/-- One attempt of the bullet-line regex `^\s*[\*-]\s+(.+)$` (flags `gm`) at a
line-start position: `\s*` greedily crosses line terminators, the marker is
`*` or
`-`, `\s+` is greedy but gives characters back to `(.+)` when the string ends
in whitespace, and `(.+)` runs to the end of the line.  Returns the capture
`$1` and the remainder of the string after the match. -/
def bulletMatch (s : List Char) : Option (List Char × List Char) :=
  match (takeWs s).2 with
  | [] => none
  | m :: t =>
    if m = '*' || m = '-' then
      let pw := takeWs t
      match pw.2 with
      | _ :: _ =>
        if pw.1.isEmpty then none
        else
          let pl := takeLine pw.2
          some (pl.1, pl.2)
      | [] =>
        match splitLastNonTerm pw.1 with
        | some (pre, d, post) =>
          if pre.isEmpty then none else some ([d], post)
        | none => none
    else none

theorem bulletMatch_decomp (s cap rest : List Char)
    (h : bulletMatch s = some (cap, rest)) :
    ∃ pre, s = pre ++ cap ++ rest ∧ cap ≠ [] ∧
      ∀ c ∈ pre, jsWs c = true ∨ c = '*' ∨ c = '-' := by
  have hs0 : (takeWs s).1 ++ (takeWs s).2 = s := takeWs_eq s
  simp only [bulletMatch] at h
  split at h
  · exact absurd h (by simp)
  · rename_i m t ht
    split at h
    · rename_i hm
      have hm' : m = '*' ∨ m = '-' := by simpa using hm
      have htw : (takeWs t).1 ++ (takeWs t).2 = t := takeWs_eq t
      split at h
      · -- a non-whitespace character follows the whitespace run
        rename_i x xs hp
        split at h
        · exact absurd h (by simp)
        · have hpr : takeLine (takeWs t).2 = (cap, rest) := by simpa using h
          have h1 : (takeLine (takeWs t).2).1 = cap := by rw [hpr]
          have h2 : (takeLine (takeWs t).2).2 = rest := by rw [hpr]
          refine ⟨(takeWs s).1 ++ m :: (takeWs t).1, ?_, ?_, ?_⟩
          · conv_lhs => rw [← hs0, ht, ← htw, ← takeLine_eq (takeWs t).2, h1, h2]
            simp
          · rw [← h1, hp]
            have hx : jsWs x = false := takeWs_snd_head t x xs hp
            have hxn : isLineTerm x = false := not_ws_not_lineTerm x hx
            simp [takeLine, hxn]
          · intro c hc
            rcases List.mem_append.mp hc with hc | hc
            · exact Or.inl (takeWs_fst_ws s c hc)
            · rcases List.mem_cons.mp hc with hc | hc
              · rw [hc]; exact Or.inr hm'
              · exact Or.inl (takeWs_fst_ws t c hc)
      · -- the whitespace run reaches the end of the string
        rename_i hp
        split at h
        · rename_i pre' d post hq
          split at h
          · exact absurd h (by simp)
          · obtain ⟨h1, h2⟩ : [d] = cap ∧ post = rest := by simpa using h
            refine ⟨(takeWs s).1 ++ m :: pre', ?_, ?_, ?_⟩
            · conv_lhs => rw [← hs0, ht, ← htw, hp, splitLastNonTerm_eq _ _ _ _ hq]
              rw [← h1, ← h2]
              simp
            · rw [← h1]; simp
            · intro c hc
              rcases List.mem_append.mp hc with hc | hc
              · exact Or.inl (takeWs_fst_ws s c hc)
              · rcases List.mem_cons.mp hc with hc | hc
                · rw [hc]; exact Or.inr hm'
                · refine Or.inl (takeWs_fst_ws t c ?_)
                  rw [splitLastNonTerm_eq _ _ _ _ hq]
                  exact List.mem_append_left _ hc
        · exact absurd h (by simp)
    · exact absurd h (by simp)

theorem bulletMatch_len (s cap rest : List Char)
    (h : bulletMatch s = some (cap, rest)) : rest.length < s.length := by
  obtain ⟨pre, he, hne, -⟩ := bulletMatch_decomp s cap rest h
  rw [he]
  simp only [List.length_append]
  have : 0 < cap.length := List.length_pos.mpr hne
  omega

section BulletScan

attribute [local irreducible] bulletMatch

/-- Stage 1 scan, structurally recursive on a step bound (always the list's
length, see `bulletGo`): attempts the multiline-anchored bullet regex at
every line-start position (string start or right after a line terminator)
and substitutes `<li>$1</li>`.  A successful match consumes at least one
character (`bulletMatch_len`), so the bound is never exhausted early. -/
def bulletGoF : Nat → Bool → List Char → List Char
  | 0, _, _ => []
  | _ + 1, _, [] => []
  | n + 1, atStart, c :: cs =>
    if atStart then
      match bulletMatch (c :: cs) with
      | some (cap, rest) =>
        "<li>".data ++ cap ++ "</li>".data ++ bulletGoF n false rest
      | none => c :: bulletGoF n (isLineTerm c) cs
    else c :: bulletGoF n (isLineTerm c) cs

/-- Stage 1 driver of the replacement
`text.replace(/^\s*[\*-]\s+(.+)$/gm, '<li>$1</li>')`. -/
def bulletGo (atStart : Bool) (l : List Char) : List Char :=
  bulletGoF l.length atStart l

/-- The greedy one-or-more unit loop of the list-grouping regex
`(?:<li>[\s\S]*?<\/li>\s*)+`: each unit is a literal `<li>`, a lazy skip to
the first `</li>`, and a greedy whitespace run; returns the whole matched
text (`$1`) and the remainder. -/
def ulUnitsF : Nat → List Char → Option (List Char × List Char)
  | 0, _ => none
  | n + 1, l =>
    match stripPre "<li>".data l with
    | none => none
    | some afterOpen =>
      match scanToCloseLi afterOpen with
      | none => none
      | some (cap, rest') =>
        match ulUnitsF n (takeWs rest').2 with
        | some (more, fin) =>
          some ("<li>".data ++ cap ++ "</li>".data ++ (takeWs rest').1 ++ more,
            fin)
        | none =>
          some ("<li>".data ++ cap ++ "</li>".data ++ (takeWs rest').1,
            (takeWs rest').2)

/-- The unit loop, with the step bound fixed to the list's length (each unit
consumes at least nine characters, so the bound is never exhausted early). -/
def ulUnits (l : List Char) : Option (List Char × List Char) :=
  ulUnitsF l.length l

theorem ulUnitsF_eq_aux (n : Nat) : ∀ l u rest : List Char, l.length ≤ n →
    ulUnitsF n l = some (u, rest) → l = u ++ rest ∧ u ≠ [] := by
  induction n with
  | zero =>
    intro l u rest hl h
    exact absurd h (by simp [ulUnitsF])
  | succ n ih =>
    intro l u rest hl h
    rw [ulUnitsF] at h
    split at h
    · exact absurd h (by simp)
    · rename_i afterOpen ho
      split at h
      · exact absurd h (by simp)
      · rename_i cap rest' hc
        have hbound : (takeWs rest').2.length ≤ n := by
          have e1 := congrArg List.length (stripPre_eq _ _ _ ho)
          simp only [List.length_append] at e1
          have h4 : ("<li>".data : List Char).length = 4 := rfl
          rw [h4] at e1
          have e2 := scanToCloseLi_len _ _ _ hc
          have e3 := takeWs_snd_len rest'
          omega
        rcases hu : ulUnitsF n (takeWs rest').2 with _ | ⟨more, fin⟩
        · rw [hu] at h
          obtain ⟨h1, h2⟩ :
              "<li>".data ++ cap ++ "</li>".data ++ (takeWs rest').1 = u ∧
              (takeWs rest').2 = rest := by simpa using h
          constructor
          · conv_lhs => rw [stripPre_eq _ _ _ ho, scanToCloseLi_eq _ _ _ hc,
              ← takeWs_eq rest']
            rw [← h1, ← h2]
            simp
          · rw [← h1]; simp
        · rw [hu] at h
          obtain ⟨h1, h2⟩ :
              "<li>".data ++ cap ++ "</li>".data ++ (takeWs rest').1 ++ more = u ∧
              fin = rest := by simpa using h
          obtain ⟨hrec, -⟩ := ih (takeWs rest').2 more fin hbound hu
          constructor
          · conv_lhs => rw [stripPre_eq _ _ _ ho, scanToCloseLi_eq _ _ _ hc,
              ← takeWs_eq rest', hrec]
            rw [← h1, ← h2]
            simp
          · rw [← h1]; simp

theorem ulUnits_eq (l u rest : List Char) (h : ulUnits l = some (u, rest)) :
    l = u ++ rest ∧ u ≠ [] :=
  ulUnitsF_eq_aux l.length l u rest (Nat.le_refl _) h

theorem ulUnits_len (l u rest : List Char) (h : ulUnits l = some (u, rest)) :
    rest.length < l.length := by
  obtain ⟨he, hne⟩ := ulUnits_eq l u rest h
  rw [he]
  simp only [List.length_append]
  have : 0 < u.length := List.length_pos.mpr hne
  omega

/-- Stage 2 scan, structurally recursive on a step bound (always the list's
length, see `ulStage`): a successful unit run consumes at least one character
(`ulUnits_len`), so the bound is never exhausted early. -/
def ulStageF : Nat → List Char → List Char
  | 0, _ => []
  | _ + 1, [] => []
  | n + 1, c :: cs =>
    match ulUnits (c :: cs) with
    | some (u, rest) => "<ul>".data ++ u ++ "</ul>".data ++ ulStageF n rest
    | none => c :: ulStageF n cs

/-- Stage 2: global replacement for `/((?:<li>[\s\S]*?<\/li>\s*)+)/g`
producing `<ul>$1</ul>`. -/
def ulStage (l : List Char) : List Char := ulStageF l.length l

/-- Stage 3 scan, structurally recursive on a step bound (always the list's
length, see `boldStage`). -/
def boldStageF : Nat → List Char → List Char
  | 0, _ => []
  | _ + 1, [] => []
  | n + 1, c :: cs =>
    match stripPre "**".data (c :: cs) with
    | some afterOpen =>
      match scanCloseBold afterOpen with
      | some (cap, rest) =>
        "<strong>".data ++ cap ++ "</strong>".data ++ boldStageF n rest
      | none => c :: boldStageF n cs
    | none => c :: boldStageF n cs

/-- Stage 3: global replacement for `/\*\*(.+?)\*\*/g` producing
`<strong>$1</strong>`. -/
def boldStage (l : List Char) : List Char := boldStageF l.length l

/-- Stage 4 scan, structurally recursive on a step bound (always the list's
length, see `italicStage`); the negative lookahead `(?!\s)` rejects a
whitespace character directly after the opening `*`. -/
def italicStageF : Nat → List Char → List Char
  | 0, _ => []
  | _ + 1, [] => []
  | n + 1, c :: cs =>
    if c = '*' then
      match cs with
      | [] => [c]
      | d :: ds =>
        if jsWs d then c :: italicStageF n (d :: ds)
        else
          match scanClose '*' (d :: ds) with
          | some (cap, rest) =>
            "<em>".data ++ cap ++ "</em>".data ++ italicStageF n rest
          | none => c :: italicStageF n (d :: ds)
    else c :: italicStageF n cs

/-- Stage 4: global replacement for `/\*(?!\s)(.+?)\*/g` producing
`<em>$1</em>`. -/
def italicStage (l : List Char) : List Char := italicStageF l.length l

/-- `renderMarkdown` from `RepoModal.tsx`, as the composition of the five
replacement stages, in source order: bullet lines, list grouping, bold,
italic, inline code. -/
def renderMarkdownL (l : List Char) : List Char :=
  codeStage (italicStage (boldStage (ulStage (bulletGo true l))))

/-- String-level wrapper matching the source signature
`renderMarkdown(text: string): string`. -/
def renderMarkdown (s : String) : String :=
  String.mk (renderMarkdownL s.data)

/-! ### The modal's summary branch (`RepoModal` component)

The component computes `const summary = repo?.readme_summary ?? ""` and then
renders `summary ? <article ... renderMarkdown(summary) ...>
: <p>No README available for this repository.</p>`. -/

/-- What the modal shows in place of the summary. -/
inductive ModalBody where
  | rendered (html : String)
  | fallbackNotice (msg : String)
deriving DecidableEq

/-- The fixed fallback notice of `RepoModal.tsx`. -/
def noReadmeNotice : String := "No README available for this repository."

/-- `repo?.readme_summary ?? ""`: an absent summary collapses to the empty
string. -/
def modalSummary (readme : Option String) : String := readme.getD ""

/-- The summary branch of `RepoModal`: the conditional `summary ? ... : ...`
treats the empty string as falsy, so the renderer is invoked exactly on a
present, non-empty summary. -/
def modalBody (readme : Option String) : ModalBody :=
  if modalSummary readme = "" then ModalBody.fallbackNotice noReadmeNotice
  else ModalBody.rendered (renderMarkdown (modalSummary readme))

/-! ### Data-fetch fallbacks of the page sources

Each page function wraps `await fetch(...)` and `return res.json()` in
`try/catch`.  Crucially, `res.json()` is returned WITHOUT `await`: the
promise leaves the `try` block before it settles, so while a rejection of
the awaited `fetch` itself is caught, a later rejection of the `res.json()`
promise (a JSON parse error) is not — it rejects the function's own promise
and raises to the caller.  The four possible outcomes of the effect are made
explicit, and each function returns `Except Unit α`, where `Except.error`
is the uncaught rejection reaching the caller. -/

/-- Outcome of one `fetch` + `res.json()` round trip: a parsed payload, a
response with `!res.ok`, a rejection of the awaited `fetch` call (caught by
the `catch`), or a rejection of the un-awaited `res.json()` promise (not
caught). -/
inductive FetchOutcome (α : Type) where
  | success (value : α)
  | notOk
  | fetchThrown
  | parseRejected

/-- The `Repo` interface of `RepoCard.tsx`. -/
structure Repo where
  name : String
  description : Option String
  html_url : String
  language : Option String
  stargazers_count : Nat
  updated_at : String
  cover_url : Option String
  readme_summary : Option String
deriving DecidableEq

/-- The thesis page's `Thesis` type (title, optional abstract and assets). -/
structure ThesisT where
  title : String
  abstract : Option String
  assets : Option (List String)
deriving DecidableEq

/-- The home page's `Thesis` type. -/
structure ThesisH where
  title : String
  summary : Option String
  abstract : Option String
  assets : Option (List String)
deriving DecidableEq

/-- The home page's `Profile` type. -/
structure Profile where
  about : String
  email : String
deriving DecidableEq

/-- `fetchThesis` of the thesis page: a non-OK response throws inside the
`try` and is caught, as is a rejection of the awaited `fetch`; both return
the fixed `{ title: "Thesis" }` fallback.  A rejection of the un-awaited
`return res.json()` escapes the `catch` and propagates. -/
def fetchThesisPage : FetchOutcome ThesisT → Except Unit ThesisT
  | FetchOutcome.success t => Except.ok t
  | FetchOutcome.notOk => Except.ok ⟨"Thesis", none, none⟩
  | FetchOutcome.fetchThrown => Except.ok ⟨"Thesis", none, none⟩
  | FetchOutcome.parseRejected => Except.error ()

/-- `fetchRepos` of the home page: `[]` on `!res.ok` and on a caught fetch
rejection; a rejection of the un-awaited `return res.json()` propagates. -/
def fetchReposHome : FetchOutcome (List Repo) → Except Unit (List Repo)
  | FetchOutcome.success rs => Except.ok rs
  | FetchOutcome.notOk => Except.ok []
  | FetchOutcome.fetchThrown => Except.ok []
  | FetchOutcome.parseRejected => Except.error ()

/-- `fetchThesis` of the home page: `null` on `!res.ok` and on a caught
fetch rejection; a rejection of the un-awaited `return res.json()`
propagates. -/
def fetchThesisHome : FetchOutcome ThesisH → Except Unit (Option ThesisH)
  | FetchOutcome.success t => Except.ok (some t)
  | FetchOutcome.notOk => Except.ok none
  | FetchOutcome.fetchThrown => Except.ok none
  | FetchOutcome.parseRejected => Except.error ()

/-- `fetchProfile` of the home page: `null` on `!res.ok` and on a caught
fetch rejection; a rejection of the un-awaited `return res.json()`
propagates. -/
def fetchProfileHome : FetchOutcome Profile → Except Unit (Option Profile)
  | FetchOutcome.success p => Except.ok (some p)
  | FetchOutcome.notOk => Except.ok none
  | FetchOutcome.fetchThrown => Except.ok none
  | FetchOutcome.parseRejected => Except.error ()

/-! ### Predicates used to state the claims -/

/-- Angle-bracket characters, the HTML-structure characters the renderer
inserts but never escapes. -/
def isAngle (c : Char) : Bool := c = '<' || c = '>'

/-- The angle brackets of a string, in order. -/
def angles (l : List Char) : List Char := l.filter isAngle

/-- Does the token `p` occur at the head of `l`? -/
def isPre (p l : List Char) : Bool := (stripPre p l).isSome

/-- Number of (possibly overlapping) occurrences of the token `p` in `l`. -/
def countSub (p : List Char) : List Char → Nat
  | [] => 0
  | c :: cs => (if isPre p (c :: cs) then 1 else 0) + countSub p cs

/-- Would a line-start position fire the bullet regex's mandatory prefix
`\s*[\*-]\s`?  True exactly when the first non-whitespace character at or
after this position is `*` or `-` and is directly followed by whitespace:
the line carrying that character is a bullet line. -/
def bulletArmed (t : List Char) : Bool :=
  match (takeWs t).2 with
  | m :: d :: _ => (m = '*' || m = '-') && jsWs d
  | _ => false

/-- No line-start position after a line terminator is armed. -/
def bulletFreeAux : List Char → Bool
  | [] => true
  | c :: cs =>
    (if isLineTerm c then !(bulletArmed cs) else true) && bulletFreeAux cs

/-- The input has no bullet line: no line whose first non-whitespace
character is `*` or `-` followed by whitespace. -/
def bulletFree (l : List Char) : Bool := !(bulletArmed l) && bulletFreeAux l

/-- Does the list start with the literal `<li>`? -/
def startsLiOpen (l : List Char) : Bool := (stripPre "<li>".data l).isSome

/-- Does the list contain a literal `<li>` with a later `</li>` — the shape
on which the list-grouping regex fires even without any bullet line? -/
def hasLiPair : List Char → Bool
  | [] => false
  | c :: cs =>
    (startsLiOpen (c :: cs) && (scanToCloseLi (cs.drop 3)).isSome) || hasLiPair cs

/-! ### Identity of the stages on inputs without their trigger -/

theorem bulletMatch_of_not_armed (t : List Char) (h : bulletArmed t = false) :
    bulletMatch t = none := by
  rw [bulletMatch]
  split
  · rfl
  · rename_i m t' ht
    split
    · rename_i hm
      rcases t' with _ | ⟨d, t''⟩
      · simp [takeWs, splitLastNonTerm]
      · have hd : jsWs d = false := by
          have h2 : bulletArmed t = ((m = '*' || m = '-') && jsWs d) := by
            rw [bulletArmed, ht]
          rw [h2] at h
          simpa [hm] using h
        simp [takeWs, hd]
    · rfl

theorem bulletGoF_id (n : Nat) : ∀ (b : Bool) (l : List Char), l.length ≤ n →
    (b = true → bulletArmed l = false) → bulletFreeAux l = true →
    bulletGoF n b l = l := by
  induction n with
  | zero =>
    intro b l hl _ _
    have : l = [] := List.length_eq_zero.mp (Nat.le_zero.mp hl)
    rw [this]
    rfl
  | succ n ih =>
    intro b l hl hb haux
    rcases l with _ | ⟨c, cs⟩
    · rfl
    · rw [bulletGoF]
      have hlen : cs.length ≤ n := by
        simp only [List.length_cons] at hl
        omega
      have haux2 : bulletFreeAux cs = true := by
        rw [bulletFreeAux] at haux
        exact (Bool.and_eq_true_iff.mp haux).2
      have harm : isLineTerm c = true → bulletArmed cs = false := by
        intro hcn
        have h1 := (Bool.and_eq_true_iff.mp (by rwa [bulletFreeAux] at haux :
          ((if isLineTerm c = true then !(bulletArmed cs) else true) &&
            bulletFreeAux cs) = true)).1
        rw [if_pos hcn] at h1
        simpa using h1
      have hrec := ih (isLineTerm c) cs hlen harm haux2
      by_cases hbb : b = true
      · rw [if_pos hbb, bulletMatch_of_not_armed _ (hb hbb)]
        rw [hrec]
      · rw [if_neg hbb, hrec]

end BulletScan

/-- On a bullet-free input, stage 1 is the identity. -/
theorem bulletGo_id (l : List Char) (h : bulletFree l = true) :
    bulletGo true l = l := by
  obtain ⟨h1, h2⟩ := Bool.and_eq_true_iff.mp h
  exact bulletGoF_id l.length true l (Nat.le_refl _)
    (fun _ => by simpa using h1) h2

theorem ulUnitsF_none (n : Nat) (l : List Char)
    (h : (startsLiOpen l && (scanToCloseLi (l.drop 4)).isSome) = false) :
    ulUnitsF n l = none := by
  rcases n with _ | n
  · rfl
  · rw [ulUnitsF]
    split
    · rfl
    · rename_i afterOpen ho
      split
      · rfl
      · rename_i cap rest' hc
        have hopen : startsLiOpen l = true := by
          rw [startsLiOpen, ho]
          rfl
        have hdrop : l.drop 4 = afterOpen := by
          rw [stripPre_eq _ _ _ ho]
          rfl
        rw [hopen, hdrop, hc] at h
        simp at h

theorem ulStageF_id (n : Nat) : ∀ l : List Char, l.length ≤ n →
    hasLiPair l = false → ulStageF n l = l := by
  induction n with
  | zero =>
    intro l hl _
    have : l = [] := List.length_eq_zero.mp (Nat.le_zero.mp hl)
    rw [this]
    rfl
  | succ n ih =>
    intro l hl h
    rcases l with _ | ⟨c, cs⟩
    · rfl
    · rw [hasLiPair] at h
      obtain ⟨h1, h2⟩ := Bool.or_eq_false_iff.mp h
      have hnone : ulUnits (c :: cs) = none := by
        rw [ulUnits]
        apply ulUnitsF_none
        have hd : (c :: cs).drop 4 = cs.drop 3 := rfl
        rw [hd]
        exact h1
      rw [ulStageF, hnone]
      have hlen : cs.length ≤ n := by
        simp only [List.length_cons] at hl
        omega
      rw [ih cs hlen h2]

/-- On an input without a `<li>`-`</li>` pair, stage 2 is the identity. -/
theorem ulStage_id (l : List Char) (h : hasLiPair l = false) :
    ulStage l = l :=
  ulStageF_id l.length l (Nat.le_refl _) h

theorem stripPre_two_star (c : Char) (cs : List Char) (hc : ¬c = '*') :
    stripPre "**".data (c :: cs) = none := by
  have : ("**".data : List Char) = '*' :: '*' :: [] := rfl
  rw [this, stripPre, if_neg (fun he => hc he.symm)]

theorem boldStageF_id (n : Nat) : ∀ l : List Char, l.length ≤ n →
    '*' ∉ l → boldStageF n l = l := by
  induction n with
  | zero =>
    intro l hl _
    have : l = [] := List.length_eq_zero.mp (Nat.le_zero.mp hl)
    rw [this]
    rfl
  | succ n ih =>
    intro l hl h
    rcases l with _ | ⟨c, cs⟩
    · rfl
    · have hc : ¬c = '*' := fun he => h (he ▸ List.mem_cons_self c cs)
      have hcs : '*' ∉ cs := fun hm => h (List.mem_cons_of_mem c hm)
      have hlen : cs.length ≤ n := by
        simp only [List.length_cons] at hl
        omega
      rw [boldStageF, stripPre_two_star c cs hc]
      rw [ih cs hlen hcs]

/-- On an input without `*`, stage 3 is the identity. -/
theorem boldStage_id (l : List Char) (h : '*' ∉ l) : boldStage l = l :=
  boldStageF_id l.length l (Nat.le_refl _) h

theorem italicStageF_id (n : Nat) : ∀ l : List Char, l.length ≤ n →
    '*' ∉ l → italicStageF n l = l := by
  induction n with
  | zero =>
    intro l hl _
    have : l = [] := List.length_eq_zero.mp (Nat.le_zero.mp hl)
    rw [this]
    rfl
  | succ n ih =>
    intro l hl h
    rcases l with _ | ⟨c, cs⟩
    · rfl
    · have hc : ¬c = '*' := fun he => h (he ▸ List.mem_cons_self c cs)
      have hcs : '*' ∉ cs := fun hm => h (List.mem_cons_of_mem c hm)
      have hlen : cs.length ≤ n := by
        simp only [List.length_cons] at hl
        omega
      rcases cs with _ | ⟨d, ds⟩
      · rw [italicStageF, if_neg hc]
        rw [ih [] (by simp) (by simp)]
      · rw [italicStageF, if_neg hc]
        rw [ih (d :: ds) hlen hcs]

/-- On an input without `*`, stage 4 is the identity. -/
theorem italicStage_id (l : List Char) (h : '*' ∉ l) : italicStage l = l :=
  italicStageF_id l.length l (Nat.le_refl _) h

theorem codeStageF_id (n : Nat) : ∀ l : List Char, l.length ≤ n →
    bt ∉ l → codeStageF n l = l := by
  induction n with
  | zero =>
    intro l hl _
    have : l = [] := List.length_eq_zero.mp (Nat.le_zero.mp hl)
    rw [this]
    rfl
  | succ n ih =>
    intro l hl h
    rcases l with _ | ⟨c, cs⟩
    · rfl
    · have hc : ¬c = bt := fun he => h (he ▸ List.mem_cons_self c cs)
      have hcs : bt ∉ cs := fun hm => h (List.mem_cons_of_mem c hm)
      have hlen : cs.length ≤ n := by
        simp only [List.length_cons] at hl
        omega
      rw [codeStageF, if_neg hc]
      rw [ih cs hlen hcs]

/-- On an input without a backtick, stage 5 is the identity. -/
theorem codeStage_id (l : List Char) (h : bt ∉ l) : codeStage l = l :=
  codeStageF_id l.length l (Nat.le_refl _) h

/-! ### The input's angle brackets survive, in order, into each stage's
output: no stage deletes or encodes a `<` or `>`; replaced delimiters are
only whitespace, `*`, `-` and backticks. -/

theorem angles_append (a b : List Char) : angles (a ++ b) = angles a ++ angles b :=
  List.filter_append a b

theorem angles_cons_of_neg (c : Char) (l : List Char) (h : isAngle c = false) :
    angles (c :: l) = angles l :=
  List.filter_cons_of_neg (by simp [h])

theorem angle_not_jsWs (c : Char) (h : isAngle c = true) : jsWs c = false := by
  rw [isAngle] at h
  simp only [Bool.or_eq_true, decide_eq_true_eq] at h
  rcases h with rfl | rfl <;> decide

theorem jsWs_not_angle (c : Char) (h : jsWs c = true) : isAngle c = false := by
  by_cases ha : isAngle c = true
  · rw [angle_not_jsWs c ha] at h
    exact absurd h (by simp)
  · simpa using ha

theorem isAngle_bt : isAngle bt = false := by decide

theorem isAngle_star : isAngle '*' = false := by decide

/-- Wrapping a kept capture in an open and close tag, and recursing on the
remainder, preserves the capture's and remainder's angle brackets in order. -/
theorem angles_wrap (tagO cap tagC out rest : List Char)
    (hO : angles tagO = ['<', '>']) (hC : angles tagC = ['<', '>'])
    (h : List.Sublist (angles rest) (angles out)) :
    List.Sublist (angles cap ++ angles rest)
      (angles (tagO ++ cap ++ tagC ++ out)) := by
  rw [angles_append, angles_append, angles_append, hO, hC]
  have h1 : List.Sublist (angles cap) (['<', '>'] ++ angles cap ++ ['<', '>']) :=
    List.Sublist.trans (List.sublist_append_right ['<', '>'] (angles cap))
      (List.sublist_append_left _ _)
  exact List.Sublist.append h1 h

theorem angles_cons_sub (c : Char) (x y : List Char)
    (h : List.Sublist (angles x) (angles y)) :
    List.Sublist (angles (c :: x)) (angles (c :: y)) := by
  by_cases hA : isAngle c = true
  · rw [angles, List.filter_cons_of_pos (by simpa using hA),
      angles, List.filter_cons_of_pos (by simpa using hA)]
    exact List.Sublist.cons₂ c h
  · rw [angles_cons_of_neg c x (by simpa using hA),
      angles_cons_of_neg c y (by simpa using hA)]
    exact h

theorem codeStageF_angles (n : Nat) : ∀ l : List Char, l.length ≤ n →
    List.Sublist (angles l) (angles (codeStageF n l)) := by
  induction n with
  | zero =>
    intro l hl
    have : l = [] := List.length_eq_zero.mp (Nat.le_zero.mp hl)
    rw [this]
    exact List.Sublist.refl _
  | succ n ih =>
    intro l hl
    rcases l with _ | ⟨c, cs⟩
    · exact List.Sublist.refl _
    · have hlen : cs.length ≤ n := by
        simp only [List.length_cons] at hl
        omega
      rw [codeStageF]
      by_cases hc : c = bt
      · subst hc
        rw [if_pos rfl]
        split
        · rename_i cap rest hm
          have hdec := scanClose_eq bt cs cap rest hm
          have hrl : rest.length ≤ n := by
            have := scanClose_len bt cs cap rest hm
            omega
          rw [angles_cons_of_neg bt cs isAngle_bt, hdec, angles_append,
            angles_cons_of_neg bt rest isAngle_bt]
          exact angles_wrap "<code>".data cap "</code>".data (codeStageF n rest)
            rest (by decide) (by decide) (ih rest hrl)
        · show List.Sublist (angles (bt :: cs)) (angles (bt :: codeStageF n cs))
          rw [angles_cons_of_neg bt cs isAngle_bt,
            angles_cons_of_neg bt _ isAngle_bt]
          exact ih cs hlen
      · rw [if_neg hc]
        exact angles_cons_sub c cs (codeStageF n cs) (ih cs hlen)

theorem italicStageF_angles (n : Nat) : ∀ l : List Char, l.length ≤ n →
    List.Sublist (angles l) (angles (italicStageF n l)) := by
  induction n with
  | zero =>
    intro l hl
    have : l = [] := List.length_eq_zero.mp (Nat.le_zero.mp hl)
    rw [this]
    exact List.Sublist.refl _
  | succ n ih =>
    intro l hl
    rcases l with _ | ⟨c, cs⟩
    · exact List.Sublist.refl _
    · have hlen : cs.length ≤ n := by
        simp only [List.length_cons] at hl
        omega
      rcases cs with _ | ⟨d, ds⟩
      · rw [italicStageF]
        by_cases hc : c = '*'
        · rw [if_pos hc]
        · rw [if_neg hc]
          have he : italicStageF n ([] : List Char) = [] := by
            cases n <;> rfl
          rw [he]
      · rw [italicStageF]
        by_cases hc : c = '*'
        · subst hc
          rw [if_pos rfl]
          by_cases hw : jsWs d = true
          · rw [if_pos hw]
            show List.Sublist (angles ('*' :: d :: ds))
              (angles ('*' :: italicStageF n (d :: ds)))
            rw [angles_cons_of_neg '*' _ isAngle_star,
              angles_cons_of_neg '*' _ isAngle_star]
            exact ih (d :: ds) hlen
          · rw [if_neg hw]
            split
            · rename_i cap rest hm
              have hdec := scanClose_eq '*' (d :: ds) cap rest hm
              have hrl : rest.length ≤ n := by
                have := scanClose_len '*' (d :: ds) cap rest hm
                simp only [List.length_cons] at this hl hlen
                omega
              rw [angles_cons_of_neg '*' _ isAngle_star, hdec, angles_append,
                angles_cons_of_neg '*' rest isAngle_star]
              exact angles_wrap "<em>".data cap "</em>".data
                (italicStageF n rest) rest (by decide) (by decide) (ih rest hrl)
            · show List.Sublist (angles ('*' :: d :: ds))
                (angles ('*' :: italicStageF n (d :: ds)))
              rw [angles_cons_of_neg '*' _ isAngle_star,
                angles_cons_of_neg '*' _ isAngle_star]
              exact ih (d :: ds) hlen
        · rw [if_neg hc]
          exact angles_cons_sub c (d :: ds) (italicStageF n (d :: ds))
            (ih (d :: ds) hlen)

theorem boldStageF_angles (n : Nat) : ∀ l : List Char, l.length ≤ n →
    List.Sublist (angles l) (angles (boldStageF n l)) := by
  induction n with
  | zero =>
    intro l hl
    have : l = [] := List.length_eq_zero.mp (Nat.le_zero.mp hl)
    rw [this]
    exact List.Sublist.refl _
  | succ n ih =>
    intro l hl
    rcases l with _ | ⟨c, cs⟩
    · exact List.Sublist.refl _
    · have hlen : cs.length ≤ n := by
        simp only [List.length_cons] at hl
        omega
      rw [boldStageF]
      split
      · rename_i afterOpen ho
        split
        · rename_i cap rest hm
          have h1 := stripPre_eq _ _ _ ho
          have h2 := scanCloseBold_eq _ _ _ hm
          have hrl : rest.length ≤ n := by
            have e1 := congrArg List.length h1
            have e2 := congrArg List.length h2
            simp only [List.length_cons, List.length_append,
              List.length_nil] at e1 e2
            omega
          have hcc : (c :: cs) = '*' :: '*' :: (cap ++ '*' :: '*' :: rest) := by
            rw [h1, h2]
            rfl
          rw [hcc, angles_cons_of_neg '*' _ isAngle_star,
            angles_cons_of_neg '*' _ isAngle_star, angles_append,
            angles_cons_of_neg '*' _ isAngle_star,
            angles_cons_of_neg '*' rest isAngle_star]
          exact angles_wrap "<strong>".data cap "</strong>".data
            (boldStageF n rest) rest (by decide) (by decide) (ih rest hrl)
        · exact angles_cons_sub c cs (boldStageF n cs) (ih cs hlen)
      · exact angles_cons_sub c cs (boldStageF n cs) (ih cs hlen)

theorem ulStageF_angles (n : Nat) : ∀ l : List Char, l.length ≤ n →
    List.Sublist (angles l) (angles (ulStageF n l)) := by
  induction n with
  | zero =>
    intro l hl
    have : l = [] := List.length_eq_zero.mp (Nat.le_zero.mp hl)
    rw [this]
    exact List.Sublist.refl _
  | succ n ih =>
    intro l hl
    rcases l with _ | ⟨c, cs⟩
    · exact List.Sublist.refl _
    · have hlen : cs.length ≤ n := by
        simp only [List.length_cons] at hl
        omega
      rw [ulStageF]
      split
      · rename_i u rest hu
        obtain ⟨he, hne⟩ := ulUnits_eq _ _ _ hu
        have hrl : rest.length ≤ n := by
          have e1 := congrArg List.length he
          have hu0 : 0 < u.length := List.length_pos.mpr hne
          simp only [List.length_cons, List.length_append] at e1
          omega
        rw [he, angles_append]
        exact angles_wrap "<ul>".data u "</ul>".data (ulStageF n rest) rest
          (by decide) (by decide) (ih rest hrl)
      · exact angles_cons_sub c cs (ulStageF n cs) (ih cs hlen)

theorem bulletGoF_angles (n : Nat) : ∀ (b : Bool) (l : List Char),
    l.length ≤ n → List.Sublist (angles l) (angles (bulletGoF n b l)) := by
  induction n with
  | zero =>
    intro b l hl
    have : l = [] := List.length_eq_zero.mp (Nat.le_zero.mp hl)
    rw [this]
    exact List.Sublist.refl _
  | succ n ih =>
    intro b l hl
    rcases l with _ | ⟨c, cs⟩
    · exact List.Sublist.refl _
    · have hlen : cs.length ≤ n := by
        simp only [List.length_cons] at hl
        omega
      rw [bulletGoF]
      by_cases hb : b = true
      · rw [if_pos hb]
        split
        · rename_i cap rest hm
          obtain ⟨pre, he, hcne, hpre⟩ := bulletMatch_decomp _ _ _ hm
          have hrl : rest.length ≤ n := by
            have := bulletMatch_len _ _ _ hm
            simp only [List.length_cons] at this
            omega
          have hpre0 : angles pre = [] := by
            refine List.filter_eq_nil_iff.mpr (fun a ha => ?_)
            rcases hpre a ha with h' | h' | h'
            · simp [jsWs_not_angle a h']
            · rw [h']; decide
            · rw [h']; decide
          rw [he, angles_append, angles_append, hpre0, List.nil_append]
          exact angles_wrap "<li>".data cap "</li>".data
            (bulletGoF n false rest) rest (by decide) (by decide)
            (ih false rest hrl)
        · exact angles_cons_sub c cs (bulletGoF n (isLineTerm c) cs)
            (ih _ cs hlen)
      · rw [if_neg hb]
        exact angles_cons_sub c cs (bulletGoF n (isLineTerm c) cs)
          (ih _ cs hlen)

theorem bulletGo_angles (l : List Char) :
    List.Sublist (angles l) (angles (bulletGo true l)) :=
  bulletGoF_angles l.length true l (Nat.le_refl _)

theorem ulStage_angles (l : List Char) :
    List.Sublist (angles l) (angles (ulStage l)) :=
  ulStageF_angles l.length l (Nat.le_refl _)

theorem boldStage_angles (l : List Char) :
    List.Sublist (angles l) (angles (boldStage l)) :=
  boldStageF_angles l.length l (Nat.le_refl _)

theorem italicStage_angles (l : List Char) :
    List.Sublist (angles l) (angles (italicStage l)) :=
  italicStageF_angles l.length l (Nat.le_refl _)

theorem codeStage_angles (l : List Char) :
    List.Sublist (angles l) (angles (codeStage l)) :=
  codeStageF_angles l.length l (Nat.le_refl _)

/-- Every angle bracket of the input appears, in order, in the renderer's
output. -/
theorem renderMarkdownL_angles (l : List Char) :
    List.Sublist (angles l) (angles (renderMarkdownL l)) :=
  ((((bulletGo_angles l).trans (ulStage_angles _)).trans
    (boldStage_angles _)).trans (italicStage_angles _)).trans
    (codeStage_angles _)

/-! ### The claims -/

/-- C1: Totality of the renderer: the embedded `renderMarkdown` is a total
function — every input string, including adjacent bold markers `****` and
strings with unbalanced delimiters, yields some output string — and the
empty string yields the empty string. -/
theorem c1_renderer_total :
    renderMarkdown "" = "" ∧
    renderMarkdown "****" = "<em>*</em>*" ∧
    ∀ s : String, ∃ t : String, renderMarkdown s = t :=
  ⟨by decide, by decide, fun s => ⟨renderMarkdown s, rfl⟩⟩

/-- C2 (counterexample): the input `<li>a</li>` contains none of the claimed
markers — no `*` (so no bold or italic delimiter), no backtick, and no
bullet line — yet `renderMarkdown` does not return it unchanged: the
list-grouping stage fires on the literal `<li>…</li>` text and wraps it in
`<ul>…</ul>`. -/
theorem c2_plain_id_counterexample :
    ('*' ∉ "<li>a</li>".data) ∧ (bt ∉ "<li>a</li>".data) ∧
    bulletFree "<li>a</li>".data = true ∧
    renderMarkdown "<li>a</li>" = "<ul><li>a</li></ul>" ∧
    renderMarkdown "<li>a</li>" ≠ "<li>a</li>" :=
  ⟨by decide, by decide, by decide, by decide, by decide⟩

/-- C2 (amended): identity on plain text, additionally requiring that the
input contain no literal `<li>` with a later `</li>` (the list-grouping
pattern fires on such text even without any bullet line): an input with no
`*`, no backtick, no bullet line (no line whose first non-whitespace
character is `*` or `-` followed by whitespace) and no `<li>`-`</li>` pair
is returned unchanged. -/
theorem c2_plain_id_amended (s : String)
    (h1 : '*' ∉ s.data) (h2 : bt ∉ s.data)
    (h3 : bulletFree s.data = true) (h4 : hasLiPair s.data = false) :
    renderMarkdown s = s := by
  rw [renderMarkdown, renderMarkdownL, bulletGo_id s.data h3,
    ulStage_id s.data h4, boldStage_id s.data h1, italicStage_id s.data h1,
    codeStage_id s.data h2]

/-- C2 witness: a concrete plain-text input rendered unchanged. -/
theorem c2_plain_id_amended_witness :
    renderMarkdown "just plain text, no markers." =
      "just plain text, no markers." :=
  c2_plain_id_amended "just plain text, no markers." (by decide) (by decide)
    (by decide) (by decide)

/-- C3: `renderMarkdown` is exactly the composition of the five stage
transformations in source order — bullet lines, list grouping, bold, italic,
inline code — and the order is load-bearing: on `**bold**` this order yields
one strong span, while running the italic stage before the bold stage
consumes one `*` as an italic opener (the italic stage alone maps `**bold**`
to `<em>*bold</em>*`) and the two compositions disagree. -/
theorem c3_stage_order :
    (∀ s : String, renderMarkdown s =
      String.mk (codeStage (italicStage (boldStage
        (ulStage (bulletGo true s.data)))))) ∧
    renderMarkdown "**bold**" = "<strong>bold</strong>" ∧
    String.mk (italicStage "**bold**".data) = "<em>*bold</em>*" ∧
    codeStage (boldStage (italicStage (ulStage
        (bulletGo true "**bold**".data)))) ≠
      codeStage (italicStage (boldStage (ulStage
        (bulletGo true "**bold**".data)))) :=
  ⟨fun _ => rfl, by decide, by decide, by decide⟩

/-- C4: on the input `- a\n- b` the renderer produces exactly one list
container wrapping exactly two list items holding `a` and `b` in original
order; the two consecutive bullet-derived items are not split into adjacent
containers. -/
theorem c4_list_grouping :
    renderMarkdown "- a\n- b" = "<ul><li>a</li>\n<li>b</li></ul>" ∧
    countSub "<ul>".data (renderMarkdown "- a\n- b").data = 1 ∧
    countSub "</ul>".data (renderMarkdown "- a\n- b").data = 1 ∧
    countSub "<li>".data (renderMarkdown "- a\n- b").data = 2 ∧
    countSub "<li>a</li>".data (renderMarkdown "- a\n- b").data = 1 ∧
    countSub "<li>b</li>".data (renderMarkdown "- a\n- b").data = 1 :=
  ⟨by decide, by decide, by decide, by decide, by decide, by decide⟩

/-- C5: on the input `**bold** and *italic*` the output holds exactly one
strong span whose content is `bold` and exactly one emphasis span whose
content is `italic`, and the spans do not overlap (the full output equality
exhibits them side by side). -/
theorem c5_bold_italic_separation :
    renderMarkdown "**bold** and *italic*" =
      "<strong>bold</strong> and <em>italic</em>" ∧
    countSub "<strong>".data
      (renderMarkdown "**bold** and *italic*").data = 1 ∧
    countSub "<em>".data (renderMarkdown "**bold** and *italic*").data = 1 ∧
    countSub "<strong>bold</strong>".data
      (renderMarkdown "**bold** and *italic*").data = 1 ∧
    countSub "<em>italic</em>".data
      (renderMarkdown "**bold** and *italic*").data = 1 :=
  ⟨by decide, by decide, by decide, by decide, by decide⟩

/-- C6: an unbalanced delimiter renders literally: `*unterminated` is
returned unchanged — in particular the output contains the literal `*`. -/
theorem c6_unbalanced_literal :
    renderMarkdown "*unterminated" = "*unterminated" ∧
    '*' ∈ (renderMarkdown "*unterminated").data :=
  ⟨by decide, by decide⟩

/-- C7 (counterexample): the modal does NOT handle an absent summary
distinctly from an empty one: `repo?.readme_summary ?? ""` collapses absence
to the empty string, and both take the identical fallback branch. -/
theorem c7_absence_empty_counterexample :
    modalBody none = modalBody (some "") ∧
    modalBody none = ModalBody.fallbackNotice noReadmeNotice :=
  ⟨by decide, by decide⟩

/-- C7 (amended): the modal invokes the renderer exactly on a present,
non-empty summary; an absent summary and a present-but-empty summary are
handled identically, by the same fixed fallback notice, without invoking the
renderer. -/
theorem c7_fallback_amended :
    (∀ s : String, s ≠ "" →
      modalBody (some s) = ModalBody.rendered (renderMarkdown s)) ∧
    modalBody none = ModalBody.fallbackNotice noReadmeNotice ∧
    modalBody (some "") = ModalBody.fallbackNotice noReadmeNotice := by
  refine ⟨fun s hs => ?_, by decide, by decide⟩
  have hsum : modalSummary (some s) = s := rfl
  rw [modalBody, hsum, if_neg hs]

/-- C7 witness: a concrete non-empty summary is rendered, not replaced by
the fallback. -/
theorem c7_fallback_amended_witness :
    modalBody (some "hi") = ModalBody.rendered (renderMarkdown "hi") :=
  c7_fallback_amended.1 "hi" (by decide)

/-- C8: determinism of the renderer: equal inputs give equal outputs.  In
this shallow embedding `renderMarkdown` is a total function of its single
string argument alone, which is the embedded form of the purity claim: it
reads and writes no state outside its own locals. -/
theorem c8_renderer_deterministic (s t : String) (h : s = t) :
    renderMarkdown s = renderMarkdown t := by
  rw [h]

/-- C8 witness: the determinism theorem applied at a concrete input. -/
theorem c8_renderer_deterministic_witness :
    renderMarkdown "x *y*" = renderMarkdown "x *y*" :=
  c8_renderer_deterministic "x *y*" "x *y*" rfl

/-- C9: no HTML escaping: every `<` and `>` of the input appears verbatim,
in order, in `renderMarkdown`'s output — the function only inserts tags
around matched constructs and never encodes or removes angle brackets (the
deleted characters are only whitespace, `*`, `-` and backticks) — and the
caller embeds the returned string unchanged as raw HTML (shown on a concrete
summary containing `<b>`, which survives into the rendered body). -/
theorem c9_angles_verbatim :
    (∀ s : String,
      List.Sublist (angles s.data) (angles (renderMarkdown s).data)) ∧
    modalBody (some "a <b> c") = ModalBody.rendered (renderMarkdown "a <b> c") ∧
    renderMarkdown "a <b> c" = "a <b> c" := by
  refine ⟨fun s => ?_, by decide, by decide⟩
  show List.Sublist (angles s.data) (angles (renderMarkdownL s.data))
  exact renderMarkdownL_angles s.data

/-- C10 (counterexample): the claim that every fetch function returns its
fixed fallback on every thrown fetch or parse error — and so never raises
to its caller — is false: each function does `return res.json()` without
`await`, so the promise leaves the `try` before settling and a JSON parse
rejection is not caught.  At the concrete parse-rejected outcome, every one
of the four functions raises instead of returning its fallback. -/
theorem c10_parse_rejection_counterexample :
    fetchThesisPage FetchOutcome.parseRejected = Except.error () ∧
    fetchThesisPage FetchOutcome.parseRejected ≠
      Except.ok ⟨"Thesis", none, none⟩ ∧
    fetchReposHome FetchOutcome.parseRejected = Except.error () ∧
    fetchReposHome FetchOutcome.parseRejected ≠ Except.ok [] ∧
    fetchThesisHome FetchOutcome.parseRejected = Except.error () ∧
    fetchThesisHome FetchOutcome.parseRejected ≠ Except.ok none ∧
    fetchProfileHome FetchOutcome.parseRejected = Except.error () ∧
    fetchProfileHome FetchOutcome.parseRejected ≠ Except.ok none :=
  ⟨rfl, fun h => Except.noConfusion h, rfl, fun h => Except.noConfusion h,
    rfl, fun h => Except.noConfusion h, rfl, fun h => Except.noConfusion h⟩

/-- C10 (amended): each data-fetching function of the page sources returns
its fixed fallback value on every non-OK response and on every rejection of
the awaited `fetch` call itself (both are caught by its `try/catch`); only
a rejection of the un-awaited `res.json()` promise — a JSON parse error —
escapes the `catch` and propagates to the caller. -/
theorem c10_fetch_fallbacks :
    fetchThesisPage FetchOutcome.notOk = Except.ok ⟨"Thesis", none, none⟩ ∧
    fetchThesisPage FetchOutcome.fetchThrown =
      Except.ok ⟨"Thesis", none, none⟩ ∧
    fetchReposHome FetchOutcome.notOk = Except.ok [] ∧
    fetchReposHome FetchOutcome.fetchThrown = Except.ok [] ∧
    fetchThesisHome FetchOutcome.notOk = Except.ok none ∧
    fetchThesisHome FetchOutcome.fetchThrown = Except.ok none ∧
    fetchProfileHome FetchOutcome.notOk = Except.ok none ∧
    fetchProfileHome FetchOutcome.fetchThrown = Except.ok none :=
  ⟨rfl, rfl, rfl, rfl, rfl, rfl, rfl, rfl⟩

end Portfolio
